import Mathlib

/-!
Shallow embedding of the ingredient-analysis core of the Derme cosmetic
wellness platform (`app.py`): `normalize_ingredient`,
`find_ingredient_synonyms`, `parse_ingredients`,
`detect_potential_allergens` and `analyze_ingredients`, together with the
database rows these functions read.

Database queries are modelled by passing the relevant rows explicitly, in
table/query order:
* `IngredientSynonym` rows are the whole synonym table;
* `UserAllergen`, `AllergicProduct` and `SafeProduct` rows are the rows of
  the current user (the `filter_by(user_id=...)` queries), in query order;
* `KnownAllergen` rows are the whole known-allergen table, in query order.

Python strings are modelled as Lean `String`s; `str.lower` is ASCII
lowercasing (`Char.toLower` per character) and `str.strip` removes leading
and trailing whitespace.  Fields that are nullable `Text` columns are
modelled as `String`, with `""` standing for SQL NULL / Python `None`
(both falsy, exactly as the code's truthiness tests treat them).
-/

namespace Derme

/-! ### Python string primitives -/

/-- Embedding of Python `s.lower()` (ASCII case mapping, per character). -/
def pyLower (s : String) : String := ⟨s.data.map Char.toLower⟩

/-- List form of stripping: drop leading whitespace, then drop trailing
whitespace (via a reversal). -/
def stripList (l : List Char) : List Char :=
  ((l.dropWhile Char.isWhitespace).reverse.dropWhile Char.isWhitespace).reverse

/-- Embedding of Python `s.strip()`: drop leading and trailing whitespace. -/
def pyStrip (s : String) : String := ⟨stripList s.data⟩

/-- Embedding helper for Python's substring test: `leadMatch n h` holds when
`n` is an initial segment of `h`. -/
def leadMatch : List Char → List Char → Bool
  | [], _ => true
  | _ :: _, [] => false
  | a :: as, b :: bs => a = b && leadMatch as bs

/-- Embedding of Python's substring test `needle in haystack`: `needle`
occurs contiguously somewhere in `haystack` (including at its end). -/
def hasSub (needle : List Char) : List Char → Bool
  | [] => leadMatch needle []
  | c :: t => leadMatch needle (c :: t) || hasSub needle t

/-! ### `normalize_ingredient` -/

/-- Embedding of `normalize_ingredient`: `ingredient.lower().strip()`. -/
def normalize_ingredient (ingredient : String) : String :=
  pyStrip (pyLower ingredient)

/-! ### Database row types -/

/-- Row of the `IngredientSynonym` table: an undirected (primary, synonym)
name pair. -/
structure IngredientSynonym where
  primary_name : String
  synonym : String
deriving DecidableEq

/-- Row of the `UserAllergen` table for the current user (ingredient name
and severity, severity defaulting to `"unknown"` at insertion). -/
structure UserAllergen where
  ingredient_name : String
  severity : String
deriving DecidableEq

/-- Row of the `SafeProduct` / `AllergicProduct` tables for the current
user.  The analysis functions read only the raw `ingredients` text (the
`scan_date` timestamp and `reaction_severity` columns are never read by
them and are omitted). -/
structure ProductRow where
  product_name : String
  ingredients : String
deriving DecidableEq

/-- Row of the static `KnownAllergen` table.  Nullable text columns are
`""` when NULL.  The `product_categories` column stores a JSON array as
text; the embedding carries the parsed list directly (the code's
`json.loads` with `[]` fallback), since no analysis logic inspects it. -/
structure KnownAllergen where
  name : String
  where_found : String
  product_categories : List String
  clinician_note : String
  url : String
  category : String
  description : String
deriving DecidableEq

/-! ### `find_ingredient_synonyms`

The Python function returns `list(all_names)` for a set `all_names`; the
set is consumed only through membership tests downstream, so the embedding
returns the list of inserted elements (possibly with duplicates) and all
theorems speak about membership. -/

/-- Embedding of `find_ingredient_synonyms`: the normalized input plus the
normalized primary name and synonym of every table row whose lowercased
primary name or lowercased synonym equals the normalized input. -/
def find_ingredient_synonyms (table : List IngredientSynonym)
    (ingredient : String) : List String :=
  let normalized := normalize_ingredient ingredient
  let synonyms := table.filter fun r =>
    pyLower r.primary_name == normalized || pyLower r.synonym == normalized
  normalized :: synonyms.flatMap fun r =>
    [normalize_ingredient r.primary_name, normalize_ingredient r.synonym]

/-! ### `parse_ingredients` -/

/-- Character class of the regex `[\d\.\-\*\•]` used to strip leading
enumeration markers. -/
def isEnumMarker (c : Char) : Bool :=
  c.isDigit || c == '.' || c == '-' || c == '*' || c == '•'

/-- Embedding of `re.sub(r'^[\d\.\-\*\•]+\s*', '', ing)`: if the token
starts with a marker character, remove the maximal leading run of marker
characters and then the maximal following run of whitespace; otherwise the
regex does not match and the token is unchanged. -/
def strip_enum_markers (s : String) : String :=
  match s.data with
  | [] => s
  | c :: _ =>
    if isEnumMarker c then
      ⟨(s.data.dropWhile isEnumMarker).dropWhile Char.isWhitespace⟩
    else s

/-- Embedding of `re.split(r'[,;]', text)`: split at every comma or
semicolon, keeping empty pieces. -/
def splitSeps : List Char → List (List Char)
  | [] => [[]]
  | c :: cs =>
    if c == ',' || c == ';' then [] :: splitSeps cs
    else
      match splitSeps cs with
      | [] => [[c]]
      | t :: ts => (c :: t) :: ts

/-- Embedding of `text.replace('\n', ' ').replace('\r', ' ')`. -/
def replaceNewlines (s : String) : String :=
  ⟨(s.data.map fun c => if c == '\n' then ' ' else c).map
    fun c => if c == '\r' then ' ' else c⟩

/-- Per-token cleanup of the `parse_ingredients` loop body:
`ing = ing.strip()` followed by the enumeration-marker `re.sub`. -/
def clean_token (t : List Char) : String :=
  strip_enum_markers (pyStrip ⟨t⟩)

/-- Keep condition of the loop: `if ing and len(ing) > 2`. -/
def keep_token (ing : String) : Bool :=
  !ing.data.isEmpty && ing.data.length > 2

/-- Accumulation loop of `parse_ingredients` over the split tokens. -/
def cleanLoop : List (List Char) → List String
  | [] => []
  | t :: ts =>
    let ing := clean_token t
    if keep_token ing then ing :: cleanLoop ts else cleanLoop ts

/-- Embedding of `parse_ingredients`. -/
def parse_ingredients (text : String) : List String :=
  cleanLoop (splitSeps (replaceNewlines text).data)

/-! ### `detect_potential_allergens` -/

/-- Entry of the list returned by `detect_potential_allergens`
(`{'name': ..., 'count': ...}`). -/
structure PotentialAllergen where
  name : String
  count : Nat
deriving DecidableEq

/-- Synonym-expanded normalized ingredient names gathered across a list of
products (the `allergic_ingredients` / `safe_ingredients` sets, consumed
only through membership). -/
def product_synonym_names (table : List IngredientSynonym)
    (products : List ProductRow) : List String :=
  products.flatMap fun p =>
    (parse_ingredients p.ingredients).flatMap fun ing =>
      find_ingredient_synonyms table ing

/-- Embedding of
`sum(1 for p in allergic_products if ing.lower() in p.ingredients.lower())`. -/
def count_products_containing (products : List ProductRow) (ing : String) : Nat :=
  (products.filter fun p =>
    hasSub (pyLower ing).data (pyLower p.ingredients).data).length

/-- Test `any(syn in potential_allergens for syn in synonyms)`: some
synonym of `ing` lies in the set difference `allergic_set − safe_set`. -/
def potential_cond (table : List IngredientSynonym)
    (allergicNames safeNames : List String) (ing : String) : Bool :=
  (find_ingredient_synonyms table ing).any
    fun syn => allergicNames.contains syn && !(safeNames.contains syn)

/-- One step of the result-building loop of `detect_potential_allergens`:
if any synonym of `ing` lies in `allergic_set − safe_set` and no entry for
`ing` was appended yet, append `{'name': ing, 'count': ...}`. -/
def addPotential (table : List IngredientSynonym)
    (allergicNames safeNames : List String) (allergic : List ProductRow)
    (acc : List PotentialAllergen) (ing : String) : List PotentialAllergen :=
  if potential_cond table allergicNames safeNames ing then
    if (acc.map (·.name)).contains ing then acc
    else acc ++ [⟨ing, count_products_containing allergic ing⟩]
  else acc

/-- Unsorted result of `detect_potential_allergens`: the guard on missing
contrast sets, then the accumulation over every parsed ingredient of every
allergic product (in iteration order). -/
def detect_base (table : List IngredientSynonym)
    (allergic safe : List ProductRow) : List PotentialAllergen :=
  if allergic.isEmpty || safe.isEmpty then []
  else
    let allergicNames := product_synonym_names table allergic
    let safeNames := product_synonym_names table safe
    (allergic.flatMap fun p => parse_ingredients p.ingredients).foldl
      (addPotential table allergicNames safeNames allergic) []

/-- Stable insertion of an entry into a count-descending list: skip past
entries with strictly larger count, so that among equal counts the
inserted (originally earlier) entry comes first. -/
def insertByCountDesc (x : PotentialAllergen) :
    List PotentialAllergen → List PotentialAllergen
  | [] => [x]
  | y :: ys =>
    if x.count < y.count then y :: insertByCountDesc x ys else x :: y :: ys

/-- Embedding of `result.sort(key=lambda x: x['count'], reverse=True)`:
Python's `list.sort` is a stable descending sort by count, which is
extensionally the stable insertion sort below (stable sorts for a given
key agree on all inputs). -/
def sortByCountDesc : List PotentialAllergen → List PotentialAllergen
  | [] => []
  | x :: xs => insertByCountDesc x (sortByCountDesc xs)

/-- Embedding of `detect_potential_allergens` (the early-return guard is
inside `detect_base`; sorting the empty list is the identity, so the
composition is faithful to the early return). -/
def detect_potential_allergens (table : List IngredientSynonym)
    (allergic safe : List ProductRow) : List PotentialAllergen :=
  sortByCountDesc (detect_base table allergic safe)

/-! ### `analyze_ingredients` -/

/-- Entry of `results['allergens_found']`. -/
structure FoundAllergen where
  name : String
  severity : String
deriving DecidableEq

/-- Entry of `results['warnings']`. -/
structure WarningEntry where
  name : String
  allergen_name : String
  category : String
  description : String
  where_found : String
  product_categories : List String
  clinician_note : String
  url : String
deriving DecidableEq

/-- Entry of `results['potential_allergens']`. -/
structure PotentialEntry where
  name : String
  reason : String
deriving DecidableEq

/-- The `results` dictionary of `analyze_ingredients`, with its five keys. -/
structure AnalysisResults where
  allergens_found : List FoundAllergen
  safe_ingredients : List String
  unknown_ingredients : List String
  warnings : List WarningEntry
  potential_allergens : List PotentialEntry
deriving DecidableEq

/-- The `user_allergen_names` set: union of the synonym expansions of all
of the user's allergen names (consumed only through membership). -/
def user_allergen_names (table : List IngredientSynonym)
    (user_allergens : List UserAllergen) : List String :=
  user_allergens.flatMap fun a => find_ingredient_synonyms table a.ingredient_name

/-- Severity lookup of the found-allergen branch: the severity of the
first user-allergen row (in query order) whose normalized ingredient name
lies in the ingredient's synonym set, else `"unknown"`. -/
def severity_for (user_allergens : List UserAllergen)
    (synonyms : List String) : String :=
  match user_allergens.find?
      (fun ua => synonyms.contains (normalize_ingredient ua.ingredient_name)) with
  | some ua => ua.severity
  | none => "unknown"

/-- The warning entry built from a matching known-allergen row
(`known.description or known.where_found` is the Python truthiness
fallback). -/
def mk_warning (ing : String) (k : KnownAllergen) : WarningEntry :=
  ⟨ing, k.name, k.category,
    if k.description == "" then k.where_found else k.description,
    k.where_found, k.product_categories, k.clinician_note, k.url⟩

/-- Loop body of `analyze_ingredients` for one ingredient: the
first-matching-wins cascade over the four populated result lists.  The
recursive formulation prepends the classification of the head ingredient
to the results of the rest, which yields exactly the append-in-order lists
the Python loop builds. -/
def analyze_step (table : List IngredientSynonym)
    (user_allergens : List UserAllergen) (uaNames potNames : List String)
    (known : List KnownAllergen) (ing : String) (r : AnalysisResults) :
    AnalysisResults :=
  let synonyms := find_ingredient_synonyms table ing
  if synonyms.any uaNames.contains then
    ⟨⟨ing, severity_for user_allergens synonyms⟩ :: r.allergens_found,
      r.safe_ingredients, r.unknown_ingredients, r.warnings,
      r.potential_allergens⟩
  else if potNames.contains (normalize_ingredient ing) then
    ⟨r.allergens_found, r.safe_ingredients, r.unknown_ingredients, r.warnings,
      ⟨ing, "Found in allergic products but not in safe products"⟩ ::
        r.potential_allergens⟩
  else
    match known.find? (fun k => synonyms.contains (pyLower k.name)) with
    | some k =>
      ⟨r.allergens_found, r.safe_ingredients, r.unknown_ingredients,
        mk_warning ing k :: r.warnings, r.potential_allergens⟩
    | none =>
      ⟨r.allergens_found, ing :: r.safe_ingredients, r.unknown_ingredients,
        r.warnings, r.potential_allergens⟩

/-- The per-ingredient loop of `analyze_ingredients`. -/
def analyze_loop (table : List IngredientSynonym)
    (user_allergens : List UserAllergen) (uaNames potNames : List String)
    (known : List KnownAllergen) : List String → AnalysisResults
  | [] => ⟨[], [], [], [], []⟩
  | ing :: rest =>
    analyze_step table user_allergens uaNames potNames known ing
      (analyze_loop table user_allergens uaNames potNames known rest)

/-- Embedding of `analyze_ingredients`. -/
def analyze_ingredients (table : List IngredientSynonym)
    (user_allergens : List UserAllergen) (allergic safe : List ProductRow)
    (known : List KnownAllergen) (ingredients_list : List String) :
    AnalysisResults :=
  let uaNames := user_allergen_names table user_allergens
  let potNames := (detect_potential_allergens table allergic safe).map
    fun p => pyLower p.name
  analyze_loop table user_allergens uaNames potNames known ingredients_list

/-! ### Classification predicates of the `analyze_ingredients` cascade,
used to state its input/output characterization -/

/-- Branch (1): some synonym-expanded name of the ingredient lies in the
user's synonym-expanded personal-allergen name set. -/
def found_cond (table : List IngredientSynonym)
    (user_allergens : List UserAllergen) (ing : String) : Bool :=
  (find_ingredient_synonyms table ing).any
    (user_allergen_names table user_allergens).contains

/-- Branch (2): the normalized ingredient lies in the lowercased names of
the cross-referencing result. -/
def pot_cond (table : List IngredientSynonym)
    (allergic safe : List ProductRow) (ing : String) : Bool :=
  ((detect_potential_allergens table allergic safe).map
    fun p => pyLower p.name).contains (normalize_ingredient ing)

/-- Branch (3): the first known-allergen row (in query order) whose
lowercased name lies in the ingredient's synonym set, if any. -/
def known_for (table : List IngredientSynonym) (known : List KnownAllergen)
    (ing : String) : Option KnownAllergen :=
  known.find? fun k => (find_ingredient_synonyms table ing).contains (pyLower k.name)

/-- The warning entry produced for an ingredient in branch (3); the `none`
fallback is never reached on the branch-(3) filter. -/
def warning_for (table : List IngredientSynonym) (known : List KnownAllergen)
    (ing : String) : WarningEntry :=
  match known_for table known ing with
  | some k => mk_warning ing k
  | none => mk_warning ing ⟨"", "", [], "", "", "", ""⟩

/-! ## Theorems -/

/-! ### Facts about `Char.toLower`, needed for idempotence of
`normalize_ingredient` (claim C8) -/

theorem char_toNat_inj {a b : Char} (h : a.toNat = b.toNat) : a = b := by
  have ha := Char.ofNat_toNat a
  rw [h, Char.ofNat_toNat] at ha
  exact ha.symm

theorem toNat_ofNat_valid {n : Nat} (h : n.isValidChar) :
    (Char.ofNat n).toNat = n := by
  unfold Char.ofNat
  rw [dif_pos h]
  rfl

theorem toNat_toLower (c : Char) :
    c.toLower.toNat =
      if 65 ≤ c.toNat ∧ c.toNat ≤ 90 then c.toNat + 32 else c.toNat := by
  show (if 65 ≤ c.toNat ∧ c.toNat ≤ 90 then Char.ofNat (c.toNat + 32) else c).toNat = _
  by_cases h : 65 ≤ c.toNat ∧ c.toNat ≤ 90
  · rw [if_pos h, if_pos h]
    exact toNat_ofNat_valid (Or.inl (by omega))
  · rw [if_neg h, if_neg h]

theorem toLower_toLower (c : Char) : c.toLower.toLower = c.toLower := by
  apply char_toNat_inj
  rw [toNat_toLower, toNat_toLower]
  by_cases h : 65 ≤ c.toNat ∧ c.toNat ≤ 90
  · simp only [if_pos h]
    rw [if_neg (by omega)]
  · simp only [if_neg h]

theorem isWhitespace_eq_false_of_toNat {c : Char} (h32 : c.toNat ≠ 32)
    (h9 : c.toNat ≠ 9) (h13 : c.toNat ≠ 13) (h10 : c.toNat ≠ 10) :
    c.isWhitespace = false := by
  simp only [Char.isWhitespace, Bool.or_eq_false_iff, decide_eq_false_iff_not]
  refine ⟨⟨⟨fun he => h32 ?_, fun he => h9 ?_⟩, fun he => h13 ?_⟩,
    fun he => h10 ?_⟩ <;> (subst he; decide)

theorem isWhitespace_toLower (c : Char) :
    c.toLower.isWhitespace = c.isWhitespace := by
  by_cases h : 65 ≤ c.toNat ∧ c.toNat ≤ 90
  · have h1 : c.toLower.toNat = c.toNat + 32 := by rw [toNat_toLower, if_pos h]
    rw [isWhitespace_eq_false_of_toNat (by omega) (by omega) (by omega) (by omega),
      isWhitespace_eq_false_of_toNat (c := c) (by omega) (by omega) (by omega) (by omega)]
  · have h1 : c.toLower = c := by
      apply char_toNat_inj
      rw [toNat_toLower, if_neg h]
    rw [h1]

/-! ### Idempotence machinery for `pyStrip` -/

theorem dropWhile_dropWhile (p : α → Bool) (l : List α) :
    (l.dropWhile p).dropWhile p = l.dropWhile p := by
  induction l with
  | nil => rfl
  | cons x xs ih =>
    by_cases h : p x
    · simpa [List.dropWhile_cons, h] using ih
    · simp [List.dropWhile_cons, h]

theorem dropWhile_eq_self_of_head {p : α → Bool} {l : List α}
    (h : ∀ a, l.head? = some a → p a = false) : l.dropWhile p = l := by
  cases l with
  | nil => rfl
  | cons x xs =>
    have hx := h x rfl
    simp [List.dropWhile_cons, hx]

theorem head?_dropWhile_false {p : α → Bool} {l : List α} {a : α}
    (h : (l.dropWhile p).head? = some a) : p a = false := by
  have hd := List.head?_dropWhile_not p l
  rw [h] at hd
  exact hd

theorem getLast?_dropWhile_of_ne_nil {p : α → Bool} {l : List α}
    (h : l.dropWhile p ≠ []) : (l.dropWhile p).getLast? = l.getLast? := by
  conv_rhs => rw [← List.takeWhile_append_dropWhile p l]
  rw [List.getLast?_append]
  cases he : (l.dropWhile p).getLast? with
  | none => exact absurd (List.getLast?_eq_none_iff.mp he) h
  | some a => rfl

theorem head?_stripList {l : List Char} {a : Char}
    (h : (stripList l).head? = some a) : a.isWhitespace = false := by
  unfold stripList at h
  rw [List.head?_reverse] at h
  by_cases hne :
      (l.dropWhile Char.isWhitespace).reverse.dropWhile Char.isWhitespace = []
  · rw [hne] at h
    simp at h
  · rw [getLast?_dropWhile_of_ne_nil hne, List.getLast?_reverse] at h
    exact head?_dropWhile_false h

theorem stripList_idem (l : List Char) :
    stripList (stripList l) = stripList l := by
  have h1 : (stripList l).dropWhile Char.isWhitespace = stripList l :=
    dropWhile_eq_self_of_head fun a ha => head?_stripList ha
  have hrev : (stripList l).reverse =
      (l.dropWhile Char.isWhitespace).reverse.dropWhile Char.isWhitespace := by
    unfold stripList
    rw [List.reverse_reverse]
  show (((stripList l).dropWhile Char.isWhitespace).reverse.dropWhile
      Char.isWhitespace).reverse = stripList l
  rw [h1, hrev]
  exact congrArg List.reverse (dropWhile_dropWhile _ _)

theorem pyStrip_idem (s : String) : pyStrip (pyStrip s) = pyStrip s := by
  show (⟨stripList (stripList s.data)⟩ : String) = ⟨stripList s.data⟩
  rw [stripList_idem]

theorem dropWS_map_toLower (l : List Char) :
    (l.map Char.toLower).dropWhile Char.isWhitespace
      = (l.dropWhile Char.isWhitespace).map Char.toLower := by
  have hpf : (Char.isWhitespace ∘ Char.toLower) = Char.isWhitespace :=
    funext fun c => isWhitespace_toLower c
  rw [List.dropWhile_map, hpf]

theorem stripList_map_toLower (l : List Char) :
    stripList (l.map Char.toLower) = (stripList l).map Char.toLower := by
  unfold stripList
  rw [dropWS_map_toLower, ← List.map_reverse, dropWS_map_toLower, ← List.map_reverse]

theorem normalize_ingredient_idem (s : String) :
    normalize_ingredient (normalize_ingredient s) = normalize_ingredient s := by
  show (⟨stripList ((stripList (s.data.map Char.toLower)).map Char.toLower)⟩ : String)
      = ⟨stripList (s.data.map Char.toLower)⟩
  rw [← stripList_map_toLower, List.map_map]
  have hff : (Char.toLower ∘ Char.toLower) = Char.toLower :=
    funext fun c => toLower_toLower c
  rw [hff, stripList_idem]

/-! ### The `parse_ingredients` loop as a filter of a map -/

theorem cleanLoop_eq_filter_map (ts : List (List Char)) :
    cleanLoop ts = (ts.map clean_token).filter keep_token := by
  induction ts with
  | nil => rfl
  | cons t ts ih =>
    show (if keep_token (clean_token t) then clean_token t :: cleanLoop ts
        else cleanLoop ts) = _
    rw [List.map_cons, List.filter_cons]
    by_cases h : keep_token (clean_token t) = true
    · rw [if_pos h, if_pos h, ih]
    · rw [if_neg h, if_neg h, ih]

/-! ### Degenerate-state behaviour -/

theorem any_contains_nil (l : List String) :
    l.any (List.contains ([] : List String)) = false := by
  induction l with
  | nil => rfl
  | cons x xs ih => simp [List.any_cons, ih]

theorem analyze_loop_all_empty (table : List IngredientSynonym) (l : List String) :
    analyze_loop table [] [] [] [] l = ⟨[], l, [], [], []⟩ := by
  induction l with
  | nil => rfl
  | cons x xs ih =>
    show analyze_step table [] [] [] [] x (analyze_loop table [] [] [] [] xs) = _
    rw [ih]
    unfold analyze_step
    simp [any_contains_nil]

/-! ### Membership characterization of `find_ingredient_synonyms` -/

theorem mem_find_ingredient_synonyms (table : List IngredientSynonym)
    (ingredient x : String) :
    x ∈ find_ingredient_synonyms table ingredient ↔
      x = normalize_ingredient ingredient ∨
      ∃ r ∈ table,
        (pyLower r.primary_name = normalize_ingredient ingredient ∨
          pyLower r.synonym = normalize_ingredient ingredient) ∧
        (x = normalize_ingredient r.primary_name ∨
          x = normalize_ingredient r.synonym) := by
  unfold find_ingredient_synonyms
  simp only [List.mem_cons, List.mem_flatMap, List.mem_filter,
    List.mem_singleton, List.not_mem_nil, or_false, Bool.or_eq_true, beq_iff_eq]
  constructor
  · rintro (rfl | ⟨r, ⟨hr, hcond⟩, hx⟩)
    · exact Or.inl rfl
    · exact Or.inr ⟨r, hr, hcond, hx⟩
  · rintro (rfl | ⟨r, hr, hcond, hx⟩)
    · exact Or.inl rfl
    · exact Or.inr ⟨r, ⟨hr, hcond⟩, hx⟩

/-! ### Names fixed by normalization -/

theorem stripList_eq_self_of_length {l : List Char}
    (h : l.length ≤ (stripList l).length) : stripList l = l := by
  have hs : (stripList l).length =
      ((l.dropWhile Char.isWhitespace).reverse.dropWhile Char.isWhitespace).length := by
    unfold stripList
    rw [List.length_reverse]
  have hle2 : ((l.dropWhile Char.isWhitespace).reverse.dropWhile
        Char.isWhitespace).length ≤ (l.dropWhile Char.isWhitespace).length := by
    have h5 := (List.dropWhile_suffix (l := (l.dropWhile Char.isWhitespace).reverse)
      Char.isWhitespace).sublist.length_le
    simpa using h5
  have hle1 : (l.dropWhile Char.isWhitespace).length ≤ l.length :=
    (List.dropWhile_suffix Char.isWhitespace).sublist.length_le
  have h1 : l.dropWhile Char.isWhitespace = l :=
    (List.dropWhile_suffix Char.isWhitespace).eq_of_length_le (by omega)
  show ((l.dropWhile Char.isWhitespace).reverse.dropWhile Char.isWhitespace).reverse = l
  rw [h1] at hs ⊢
  have h2 : l.reverse.dropWhile Char.isWhitespace = l.reverse :=
    (List.dropWhile_suffix Char.isWhitespace).eq_of_length_le
      (by rw [List.length_reverse]; omega)
  rw [h2, List.reverse_reverse]

theorem pyLower_eq_self_of_normalize {s : String}
    (h : normalize_ingredient s = s) : pyLower s = s := by
  have hd : stripList (pyLower s).data = s.data := congrArg String.data h
  have hlen : (pyLower s).data.length = s.data.length := by
    show (s.data.map Char.toLower).length = _
    rw [List.length_map]
  have hstrip : stripList (pyLower s).data = (pyLower s).data :=
    stripList_eq_self_of_length (by rw [hd, hlen])
  have hds : (pyLower s).data = s.data := by rw [← hstrip, hd]
  exact congrArg String.mk hds

/-! ### Sorting lemmas for the frequency ranking -/

theorem contains_iff_mem {α} [BEq α] [LawfulBEq α] {l : List α} {a : α} :
    l.contains a = true ↔ a ∈ l := List.elem_iff

theorem contains_eq_false_iff {α} [BEq α] [LawfulBEq α] {l : List α} {a : α} :
    l.contains a = false ↔ a ∉ l := by
  constructor
  · intro h hm
    have hc := contains_iff_mem.mpr hm
    rw [h] at hc
    cases hc
  · intro h
    cases hc : l.contains a
    · rfl
    · exact absurd (contains_iff_mem.mp hc) h

theorem mem_insertByCountDesc {x a : PotentialAllergen}
    {l : List PotentialAllergen} :
    a ∈ insertByCountDesc x l ↔ a = x ∨ a ∈ l := by
  induction l with
  | nil => simp [insertByCountDesc]
  | cons y ys ih =>
    unfold insertByCountDesc
    by_cases h : x.count < y.count
    · rw [if_pos h]
      simp only [List.mem_cons, ih]
      tauto
    · rw [if_neg h]
      simp only [List.mem_cons]

theorem mem_sortByCountDesc {a : PotentialAllergen} {l : List PotentialAllergen} :
    a ∈ sortByCountDesc l ↔ a ∈ l := by
  induction l with
  | nil => exact Iff.rfl
  | cons x xs ih =>
    show a ∈ insertByCountDesc x (sortByCountDesc xs) ↔ _
    rw [mem_insertByCountDesc]
    simp [ih]

theorem pairwise_insertByCountDesc {x : PotentialAllergen}
    {l : List PotentialAllergen}
    (h : l.Pairwise fun a b => b.count ≤ a.count) :
    (insertByCountDesc x l).Pairwise fun a b => b.count ≤ a.count := by
  induction l with
  | nil => simp [insertByCountDesc]
  | cons y ys ih =>
    rcases List.pairwise_cons.mp h with ⟨hy, hys⟩
    unfold insertByCountDesc
    by_cases hc : x.count < y.count
    · rw [if_pos hc]
      refine List.pairwise_cons.mpr ⟨?_, ih hys⟩
      intro b hb
      rcases mem_insertByCountDesc.mp hb with rfl | hb
      · omega
      · exact hy b hb
    · rw [if_neg hc]
      refine List.pairwise_cons.mpr ⟨?_, h⟩
      intro b hb
      rcases List.mem_cons.mp hb with rfl | hb
      · omega
      · have := hy b hb
        omega

theorem pairwise_sortByCountDesc (l : List PotentialAllergen) :
    (sortByCountDesc l).Pairwise fun a b => b.count ≤ a.count := by
  induction l with
  | nil => exact List.Pairwise.nil
  | cons x xs ih => exact pairwise_insertByCountDesc ih

theorem filter_insertByCountDesc_pos {x : PotentialAllergen}
    {l : List PotentialAllergen} {c : Nat} (hx : x.count = c) :
    (insertByCountDesc x l).filter (fun e => e.count == c) =
      x :: l.filter (fun e => e.count == c) := by
  induction l with
  | nil => simp [insertByCountDesc, List.filter_cons, hx]
  | cons y ys ih =>
    unfold insertByCountDesc
    by_cases hc : x.count < y.count
    · rw [if_pos hc]
      have hy : (y.count == c) = false := by
        simp only [beq_eq_false_iff_ne, ne_eq]
        omega
      simp only [List.filter_cons, hy, Bool.false_eq_true, if_false, ih]
    · rw [if_neg hc]
      simp [List.filter_cons, hx]

theorem filter_insertByCountDesc_neg {x : PotentialAllergen}
    {l : List PotentialAllergen} {c : Nat} (hx : ¬x.count = c) :
    (insertByCountDesc x l).filter (fun e => e.count == c) =
      l.filter (fun e => e.count == c) := by
  induction l with
  | nil => simp [insertByCountDesc, List.filter_cons, hx]
  | cons y ys ih =>
    unfold insertByCountDesc
    by_cases hc : x.count < y.count
    · rw [if_pos hc]
      simp only [List.filter_cons, ih]
    · rw [if_neg hc]
      simp [List.filter_cons, hx]

theorem filter_sortByCountDesc (l : List PotentialAllergen) (c : Nat) :
    (sortByCountDesc l).filter (fun e => e.count == c) =
      l.filter (fun e => e.count == c) := by
  induction l with
  | nil => rfl
  | cons x xs ih =>
    show (insertByCountDesc x (sortByCountDesc xs)).filter _ = _
    by_cases hx : x.count = c
    · rw [filter_insertByCountDesc_pos hx, ih, List.filter_cons,
        if_pos (by simp [hx])]
    · rw [filter_insertByCountDesc_neg hx, ih, List.filter_cons,
        if_neg (by simp [hx])]

/-! ### The accumulation loop of `detect_potential_allergens` -/

theorem mem_name_addPotential {table : List IngredientSynonym}
    {aN sN : List String} {allergic : List ProductRow}
    {acc : List PotentialAllergen} {x ing : String} :
    (∃ e ∈ addPotential table aN sN allergic acc x, e.name = ing) ↔
      (∃ e ∈ acc, e.name = ing) ∨
      (ing = x ∧ potential_cond table aN sN x = true) := by
  unfold addPotential
  by_cases hc : potential_cond table aN sN x = true
  · rw [if_pos hc]
    by_cases hd : ((acc.map (·.name)).contains x) = true
    · rw [if_pos hd]
      constructor
      · exact Or.inl
      · rintro (h | ⟨rfl, _⟩)
        · exact h
        · rcases List.mem_map.mp (contains_iff_mem.mp hd) with ⟨e, he, hename⟩
          exact ⟨e, he, hename⟩
    · rw [if_neg hd]
      constructor
      · rintro ⟨e, he, hename⟩
        rcases List.mem_append.mp he with he | he
        · exact Or.inl ⟨e, he, hename⟩
        · rcases List.mem_singleton.mp he with rfl
          exact Or.inr ⟨hename.symm, hc⟩
      · rintro (⟨e, he, hename⟩ | ⟨rfl, _⟩)
        · exact ⟨e, List.mem_append.mpr (Or.inl he), hename⟩
        · exact ⟨_, List.mem_append.mpr (Or.inr (List.mem_singleton.mpr rfl)), rfl⟩
  · rw [if_neg hc]
    simp [hc]

theorem mem_name_foldl_addPotential (table : List IngredientSynonym)
    (aN sN : List String) (allergic : List ProductRow) (l : List String)
    (acc : List PotentialAllergen) (ing : String) :
    (∃ e ∈ l.foldl (addPotential table aN sN allergic) acc, e.name = ing) ↔
      (∃ e ∈ acc, e.name = ing) ∨
      (ing ∈ l ∧ potential_cond table aN sN ing = true) := by
  induction l generalizing acc with
  | nil => simp
  | cons x xs ih =>
    rw [List.foldl_cons, ih, mem_name_addPotential]
    constructor
    · rintro ((h | ⟨rfl, hcond⟩) | ⟨hmem, hcond⟩)
      · exact Or.inl h
      · exact Or.inr ⟨List.mem_cons_self _ _, hcond⟩
      · exact Or.inr ⟨List.mem_cons_of_mem _ hmem, hcond⟩
    · rintro (h | ⟨hmem, hcond⟩)
      · exact Or.inl (Or.inl h)
      · rcases List.mem_cons.mp hmem with rfl | hmem
        · exact Or.inl (Or.inr ⟨rfl, hcond⟩)
        · exact Or.inr ⟨hmem, hcond⟩

theorem count_addPotential {table : List IngredientSynonym}
    {aN sN : List String} {allergic : List ProductRow}
    {acc : List PotentialAllergen} {x : String}
    (hacc : ∀ e ∈ acc, e.count = count_products_containing allergic e.name) :
    ∀ e ∈ addPotential table aN sN allergic acc x,
      e.count = count_products_containing allergic e.name := by
  intro e he
  unfold addPotential at he
  by_cases hc : potential_cond table aN sN x = true
  · rw [if_pos hc] at he
    by_cases hd : ((acc.map (·.name)).contains x) = true
    · rw [if_pos hd] at he
      exact hacc e he
    · rw [if_neg hd] at he
      rcases List.mem_append.mp he with he | he
      · exact hacc e he
      · rcases List.mem_singleton.mp he with rfl
        rfl
  · rw [if_neg hc] at he
    exact hacc e he

theorem count_foldl_addPotential {table : List IngredientSynonym}
    {aN sN : List String} {allergic : List ProductRow} (l : List String)
    (acc : List PotentialAllergen)
    (hacc : ∀ e ∈ acc, e.count = count_products_containing allergic e.name) :
    ∀ e ∈ l.foldl (addPotential table aN sN allergic) acc,
      e.count = count_products_containing allergic e.name := by
  induction l generalizing acc with
  | nil => exact hacc
  | cons x xs ih =>
    rw [List.foldl_cons]
    exact ih _ (count_addPotential hacc)

theorem count_detect_base (table : List IngredientSynonym)
    (allergic safe : List ProductRow) :
    ∀ e ∈ detect_base table allergic safe,
      e.count = count_products_containing allergic e.name := by
  unfold detect_base
  by_cases h : (allergic.isEmpty || safe.isEmpty) = true
  · rw [if_pos h]
    intro e he
    simp at he
  · rw [if_neg h]
    exact count_foldl_addPotential _ _ (by intro e he; simp at he)

theorem nonempty_guard_false {allergic safe : List ProductRow}
    (h1 : allergic ≠ []) (h2 : safe ≠ []) :
    (allergic.isEmpty || safe.isEmpty) = false := by
  cases allergic with
  | nil => exact absurd rfl h1
  | cons a as =>
    cases safe with
    | nil => exact absurd rfl h2
    | cons s ss => rfl

/-! ### Input/output characterization of the `analyze_ingredients` loop -/

theorem analyze_loop_spec (table : List IngredientSynonym)
    (user_allergens : List UserAllergen) (uaNames potNames : List String)
    (known : List KnownAllergen) (l : List String) :
    analyze_loop table user_allergens uaNames potNames known l =
      ⟨(l.filter fun i =>
            (find_ingredient_synonyms table i).any uaNames.contains).map
          fun i => ⟨i, severity_for user_allergens (find_ingredient_synonyms table i)⟩,
        l.filter fun i =>
          !(find_ingredient_synonyms table i).any uaNames.contains &&
            !potNames.contains (normalize_ingredient i) &&
            !(known_for table known i).isSome,
        [],
        (l.filter fun i =>
            !(find_ingredient_synonyms table i).any uaNames.contains &&
              !potNames.contains (normalize_ingredient i) &&
              (known_for table known i).isSome).map (warning_for table known),
        (l.filter fun i =>
            !(find_ingredient_synonyms table i).any uaNames.contains &&
              potNames.contains (normalize_ingredient i)).map
          fun i => ⟨i, "Found in allergic products but not in safe products"⟩⟩ := by
  induction l with
  | nil => rfl
  | cons x xs ih =>
    show analyze_step table user_allergens uaNames potNames known x
        (analyze_loop table user_allergens uaNames potNames known xs) = _
    rw [ih]
    simp only [analyze_step]
    have hkf : known.find?
        (fun k => (find_ingredient_synonyms table x).contains (pyLower k.name)) =
        known_for table known x := rfl
    rw [hkf]
    by_cases h1 : ((find_ingredient_synonyms table x).any uaNames.contains) = true
    · simp [List.filter_cons, h1]
    · by_cases h2 : normalize_ingredient x ∈ potNames
      · simp [List.filter_cons, h1, h2]
      · cases hk : known_for table known x with
        | some k =>
          have hw : warning_for table known x = mk_warning x k := by
            unfold warning_for
            rw [hk]
          simp [List.filter_cons, h1, h2, hk, hw]
        | none =>
          simp [List.filter_cons, h1, h2, hk]

theorem filter_cascade_partition (p q r : α → Bool) (l : List α) :
    (l.filter p).length + (l.filter fun i => !p i && q i).length +
      (l.filter fun i => !p i && !q i && r i).length +
      (l.filter fun i => !p i && !q i && !r i).length = l.length := by
  induction l with
  | nil => rfl
  | cons x xs ih =>
    by_cases hp : p x = true <;> by_cases hq : q x = true <;>
      by_cases hr : r x = true <;>
      simp [List.filter_cons, hp, hq, hr] <;> omega

/-! ## Claim theorems -/

/-- C8: `normalize_ingredient` is a pure total function equal to
lowercasing followed by trimming surrounding whitespace; it sends both
`"  Water "` and `"WATER"` to `"water"`, and it is idempotent on every
string. -/
theorem c8_normalize_lower_trim_idempotent :
    (∀ s, normalize_ingredient s = pyStrip (pyLower s)) ∧
    normalize_ingredient "  Water " = "water" ∧
    normalize_ingredient "WATER" = "water" ∧
    ∀ s, normalize_ingredient (normalize_ingredient s) = normalize_ingredient s :=
  ⟨fun _ => rfl, by decide, by decide, normalize_ingredient_idem⟩

/-- C5: `parse_ingredients` replaces newlines and carriage returns by
spaces, splits on commas and semicolons, cleans every token (strip, then
drop leading enumeration markers with their trailing whitespace) and keeps
exactly the nonempty cleaned tokens of length above 2, in order; the empty
string yields the empty sequence, and the spec's enumerated example parses
to `["Water", "Glycerin", "Vitamin E"]`. -/
theorem c5_parse_ingredients_pipeline :
    (∀ text, parse_ingredients text =
      ((splitSeps (replaceNewlines text).data).map clean_token).filter keep_token) ∧
    parse_ingredients "" = [] ∧
    parse_ingredients "1. Water, 2. Glycerin; 3. Vitamin E" =
      ["Water", "Glycerin", "Vitamin E"] :=
  ⟨fun _ => cleanLoop_eq_filter_map _, by decide, by decide⟩

/-- C4: `find_ingredient_synonyms` always contains the normalized input;
its members are exactly the normalized input together with the normalized
primary names and synonyms of rows matching the normalized input (single
hop); on a two-pair chain table over distinct normalized names `a, b, c`
the lookup of `a` contains `a` and `b` but not `c`; and with the pair
`(Tocopherol, Vitamin E)` the lookup of `"Tocopherol"` contains both
`"tocopherol"` and `"vitamin e"`. -/
theorem c4_find_synonyms_single_hop :
    (∀ table ing, normalize_ingredient ing ∈ find_ingredient_synonyms table ing) ∧
    (∀ table ing x,
      x ∈ find_ingredient_synonyms table ing ↔
        x = normalize_ingredient ing ∨
        ∃ r ∈ table,
          (pyLower r.primary_name = normalize_ingredient ing ∨
            pyLower r.synonym = normalize_ingredient ing) ∧
          (x = normalize_ingredient r.primary_name ∨
            x = normalize_ingredient r.synonym)) ∧
    (∀ a b c : String, normalize_ingredient a = a → normalize_ingredient b = b →
      normalize_ingredient c = c → a ≠ b → a ≠ c → b ≠ c →
      a ∈ find_ingredient_synonyms [⟨a, b⟩, ⟨b, c⟩] a ∧
      b ∈ find_ingredient_synonyms [⟨a, b⟩, ⟨b, c⟩] a ∧
      c ∉ find_ingredient_synonyms [⟨a, b⟩, ⟨b, c⟩] a) ∧
    ("tocopherol" ∈ find_ingredient_synonyms [⟨"Tocopherol", "Vitamin E"⟩] "Tocopherol" ∧
      "vitamin e" ∈ find_ingredient_synonyms [⟨"Tocopherol", "Vitamin E"⟩] "Tocopherol") := by
  refine ⟨fun table ing => List.mem_cons_self _ _, mem_find_ingredient_synonyms,
    ?_, by decide, by decide⟩
  intro a b c ha hb hc hab hac hbc
  have hla : pyLower a = a := pyLower_eq_self_of_normalize ha
  have hlb : pyLower b = b := pyLower_eq_self_of_normalize hb
  have hlc : pyLower c = c := pyLower_eq_self_of_normalize hc
  refine ⟨?_, ?_, ?_⟩
  · exact (mem_find_ingredient_synonyms _ _ _).mpr (Or.inl ha.symm)
  · refine (mem_find_ingredient_synonyms _ _ _).mpr (Or.inr
      ⟨⟨a, b⟩, by simp, Or.inl ?_, Or.inr hb.symm⟩)
    show pyLower a = normalize_ingredient a
    rw [hla, ha]
  · intro hmem
    rcases (mem_find_ingredient_synonyms _ _ _).mp hmem with hcx | ⟨r, hr, hcond, hx⟩
    · rw [ha] at hcx
      exact hac hcx.symm
    · simp only [List.mem_cons, List.not_mem_nil, or_false] at hr
      rcases hr with rfl | rfl
      · rcases hx with hx | hx
        · rw [ha] at hx
          exact hac hx.symm
        · rw [hb] at hx
          exact hbc hx.symm
      · rcases hcond with hcd | hcd
        · exact hab ((by rwa [hlb, ha] at hcd : b = a)).symm
        · exact hac ((by rwa [hlc, ha] at hcd : c = a)).symm

/-- Counterexample to C4 as stated: it asserts the lookup expands rows
whose NORMALIZED (lowercased and trimmed) primary name or synonym equals
the normalized input.  For the table row `("A ", "B")` — primary name
stored with a trailing space — and input `"a"`, the row's normalized
primary name equals the normalized input, so the claim predicts `"b"`
(the row's normalized synonym) in the result; but the code's SQL filter
lowercases WITHOUT trimming (`db.func.lower`), the row does not match,
and `"b"` is absent. -/
theorem c4_lower_without_trim_counterexample :
    normalize_ingredient (⟨"A ", "B"⟩ : IngredientSynonym).primary_name =
      normalize_ingredient "a" ∧
    "b" = normalize_ingredient (⟨"A ", "B"⟩ : IngredientSynonym).synonym ∧
    "b" ∉ find_ingredient_synonyms [⟨"A ", "B"⟩] "a" := by decide

/-- Witness for C4's hypothesised single-hop part at the concrete distinct
normalized names `"aaa"`, `"bbb"`, `"ccc"`. -/
theorem c4_find_synonyms_single_hop_witness :
    "aaa" ∈ find_ingredient_synonyms [⟨"aaa", "bbb"⟩, ⟨"bbb", "ccc"⟩] "aaa" ∧
    "bbb" ∈ find_ingredient_synonyms [⟨"aaa", "bbb"⟩, ⟨"bbb", "ccc"⟩] "aaa" ∧
    "ccc" ∉ find_ingredient_synonyms [⟨"aaa", "bbb"⟩, ⟨"bbb", "ccc"⟩] "aaa" :=
  c4_find_synonyms_single_hop.2.2.1 "aaa" "bbb" "ccc" (by decide) (by decide)
    (by decide) (by decide) (by decide) (by decide)

/-- C3: with zero allergic products or zero safe products,
`detect_potential_allergens` returns the empty list. -/
theorem c3_detect_no_contrast (table : List IngredientSynonym)
    (allergic safe : List ProductRow) (h : allergic = [] ∨ safe = []) :
    detect_potential_allergens table allergic safe = [] := by
  have hb : detect_base table allergic safe = [] := by
    unfold detect_base
    rcases h with h | h <;> subst h <;> simp
  unfold detect_potential_allergens
  rw [hb]
  rfl

/-- Witness for C3 at a concrete state: a user with one safe product and
no allergic products. -/
theorem c3_detect_no_contrast_witness :
    detect_potential_allergens [] [] [⟨"Soap", "Water"⟩] = [] :=
  c3_detect_no_contrast [] [] [⟨"Soap", "Water"⟩] (Or.inl rfl)

/-- C2: for a user with at least one allergic and one safe product,
`detect_potential_allergens` reports an ingredient name exactly when that
name is parsed from some allergic product and some name in its
synonym-expanded set lies in the set difference `allergic_set − safe_set`;
each side's name set is the union, over that side's products, of the
synonym expansions of all of their parsed ingredients. -/
theorem c2_detect_membership :
    (∀ table products (x : String),
      x ∈ product_synonym_names table products ↔
        ∃ p ∈ products, ∃ i ∈ parse_ingredients p.ingredients,
          x ∈ find_ingredient_synonyms table i) ∧
    (∀ table allergic safe, allergic ≠ [] → safe ≠ [] → ∀ ing,
      ((∃ e ∈ detect_potential_allergens table allergic safe, e.name = ing) ↔
        (∃ p ∈ allergic, ing ∈ parse_ingredients p.ingredients) ∧
          ∃ syn ∈ find_ingredient_synonyms table ing,
            syn ∈ product_synonym_names table allergic ∧
            syn ∉ product_synonym_names table safe)) := by
  constructor
  · intro table products x
    simp [product_synonym_names, List.mem_flatMap]
  · intro table allergic safe h1 h2 ing
    have hg := nonempty_guard_false h1 h2
    unfold detect_potential_allergens
    simp only [mem_sortByCountDesc]
    unfold detect_base
    rw [if_neg (by rw [hg]; exact Bool.false_ne_true)]
    simp only [mem_name_foldl_addPotential, List.not_mem_nil, false_and,
      exists_false, false_or, List.mem_flatMap, potential_cond,
      List.any_eq_true, Bool.and_eq_true, Bool.not_eq_true',
      contains_iff_mem, contains_eq_false_iff]

/-- Witness for C2 at the spec's concrete instance: one allergic product
with ingredients `Fragrance, Water` and one safe product with ingredients
`Water`; `Fragrance` is reported as a potential allergen and `Water` is
not. -/
theorem c2_detect_membership_witness :
    (∃ e ∈ detect_potential_allergens [] [⟨"A", "Fragrance, Water"⟩]
        [⟨"S", "Water"⟩], e.name = "Fragrance") ∧
    ¬(∃ e ∈ detect_potential_allergens [] [⟨"A", "Fragrance, Water"⟩]
        [⟨"S", "Water"⟩], e.name = "Water") := by
  constructor
  · exact (c2_detect_membership.2 [] _ _ (by decide) (by decide) "Fragrance").mpr
      (by decide)
  · intro hmem
    exact absurd
      ((c2_detect_membership.2 [] _ _ (by decide) (by decide) "Water").mp hmem)
      (by decide)

/-- C6: every entry of `detect_potential_allergens` carries as count the
number of the user's allergic products whose raw ingredient text contains
the entry's name as a case-insensitive substring; the returned list is
sorted by descending count; and entries of equal count appear in exactly
the order the unsorted accumulation (iteration over the allergic products)
first produced them, i.e. the sort is stable. -/
theorem c6_detect_count_ranking :
    (∀ table allergic safe,
      ∀ e ∈ detect_potential_allergens table allergic safe,
        e.count = count_products_containing allergic e.name) ∧
    (∀ table allergic safe,
      (detect_potential_allergens table allergic safe).Pairwise
        fun a b => b.count ≤ a.count) ∧
    (∀ table allergic safe c,
      (detect_potential_allergens table allergic safe).filter
          (fun e => e.count == c) =
        (detect_base table allergic safe).filter (fun e => e.count == c)) := by
  refine ⟨?_, ?_, ?_⟩
  · intro table allergic safe e he
    exact count_detect_base table allergic safe e (mem_sortByCountDesc.mp he)
  · intro table allergic safe
    exact pairwise_sortByCountDesc _
  · intro table allergic safe c
    exact filter_sortByCountDesc _ _

/-- Witness for C6's count clause at a concrete state: the single reported
entry for `Fragrance` carries count 1, the number of allergic products
whose text contains it. -/
theorem c6_detect_count_ranking_witness :
    (⟨"Fragrance", 1⟩ : PotentialAllergen) ∈
      detect_potential_allergens [] [⟨"A", "Fragrance, Water"⟩] [⟨"S", "Water"⟩] ∧
    (⟨"Fragrance", 1⟩ : PotentialAllergen).count =
      count_products_containing [⟨"A", "Fragrance, Water"⟩] "Fragrance" :=
  ⟨by decide,
    c6_detect_count_ranking.1 [] [⟨"A", "Fragrance, Water"⟩] [⟨"S", "Water"⟩]
      ⟨"Fragrance", 1⟩ (by decide)⟩

/-- C7: the pipeline is built from total functions and degrades gracefully
on absent data: with an empty database state every scanned ingredient is
classified safe (and no other list is populated), cross-referencing with
no products on either side yields no potential allergens, synonym lookup
over an empty table yields just the normalized input, and parsing the
empty string yields the empty sequence. -/
theorem c7_pipeline_total_graceful :
    (∀ table l, analyze_ingredients table [] [] [] [] l = ⟨[], l, [], [], []⟩) ∧
    (∀ table allergic, detect_potential_allergens table allergic [] = []) ∧
    (∀ table safe, detect_potential_allergens table [] safe = []) ∧
    (∀ ing, find_ingredient_synonyms [] ing = [normalize_ingredient ing]) ∧
    parse_ingredients "" = [] := by
  refine ⟨?_, ?_, ?_, fun ing => rfl, by decide⟩
  · intro table l
    exact analyze_loop_all_empty table l
  · intro table allergic
    unfold detect_potential_allergens detect_base
    simp [sortByCountDesc]
  · intro table safe
    unfold detect_potential_allergens detect_base
    simp [sortByCountDesc]

/-- C1: `analyze_ingredients` classifies each input ingredient, in input
order, by the first-matching-wins cascade: (1) a "found allergen" when
some synonym-expanded name lies in the user's synonym-expanded
personal-allergen name set, with severity taken by `severity_for` from the
first user-allergen row (in query order) whose normalized ingredient name
lies in the ingredient's synonym set; (2) else a "potential allergen" with
the discovery reason; (3) else a "warning" carrying the metadata of the
first known-allergen row whose lowercased name lies in the synonym set;
(4) else "safe".  At the spec's instance, a user with personal allergen
`Fragrance`/`severe` scanning `["Fragrance"]` gets exactly the one
found-allergen entry `{name: Fragrance, severity: severe}` and no entry in
warnings or safe ingredients. -/
theorem c1_analyze_first_match_classification :
    (∀ table user_allergens allergic safe known l,
      analyze_ingredients table user_allergens allergic safe known l =
        ⟨(l.filter (found_cond table user_allergens)).map
            (fun i => ⟨i, severity_for user_allergens (find_ingredient_synonyms table i)⟩),
          l.filter (fun i => !found_cond table user_allergens i &&
            !pot_cond table allergic safe i && !(known_for table known i).isSome),
          [],
          (l.filter (fun i => !found_cond table user_allergens i &&
            !pot_cond table allergic safe i && (known_for table known i).isSome)).map
            (warning_for table known),
          (l.filter (fun i => !found_cond table user_allergens i &&
            pot_cond table allergic safe i)).map
            (fun i => ⟨i, "Found in allergic products but not in safe products"⟩)⟩) ∧
    analyze_ingredients [] [⟨"Fragrance", "severe"⟩] [] [] [] ["Fragrance"] =
      ⟨[⟨"Fragrance", "severe"⟩], [], [], [], []⟩ := by
  constructor
  · intro table user_allergens allergic safe known l
    exact analyze_loop_spec table user_allergens
      (user_allergen_names table user_allergens)
      ((detect_potential_allergens table allergic safe).map fun p => pyLower p.name)
      known l
  · decide

/-- C9: the result of `analyze_ingredients` is a record with exactly the
five keys `allergens_found`, `safe_ingredients`, `unknown_ingredients`,
`warnings` and `potential_allergens` (the record type `AnalysisResults`
declares exactly these five fields), and for every input list, user state
and database state the `unknown_ingredients` list is empty: no code path
appends to it. -/
theorem c9_unknown_ingredients_always_empty (table : List IngredientSynonym)
    (user_allergens : List UserAllergen) (allergic safe : List ProductRow)
    (known : List KnownAllergen) (l : List String) :
    (analyze_ingredients table user_allergens allergic safe known
      l).unknown_ingredients = [] := by
  show (analyze_loop table user_allergens (user_allergen_names table user_allergens)
    ((detect_potential_allergens table allergic safe).map fun p => pyLower p.name)
    known l).unknown_ingredients = []
  rw [analyze_loop_spec]

/-- C10: `analyze_ingredients` partitions its input: every occurrence of
an ingredient in the input list lands in exactly one of the four populated
result lists, so their lengths sum to the input length. -/
theorem c10_analyze_partitions_input (table : List IngredientSynonym)
    (user_allergens : List UserAllergen) (allergic safe : List ProductRow)
    (known : List KnownAllergen) (l : List String) :
    (analyze_ingredients table user_allergens allergic safe known
        l).allergens_found.length +
      (analyze_ingredients table user_allergens allergic safe known
        l).potential_allergens.length +
      (analyze_ingredients table user_allergens allergic safe known
        l).warnings.length +
      (analyze_ingredients table user_allergens allergic safe known
        l).safe_ingredients.length = l.length := by
  rw [show analyze_ingredients table user_allergens allergic safe known l =
      analyze_loop table user_allergens (user_allergen_names table user_allergens)
        ((detect_potential_allergens table allergic safe).map fun p => pyLower p.name)
        known l from rfl, analyze_loop_spec]
  simp only [List.length_map]
  exact filter_cascade_partition _ _ _ l

end Derme
